import Mathlib

/-!
Verification of the wrangler-version-deploy-action repository.

The development shallowly embeds, in Lean, the pure logic of the action:

* `renderTemplate`   — the mustache-style template renderer (src/index.ts, `renderTemplate`);
* `splitArgs`        — the quote-aware argument tokenizer (src/index.ts, `splitArgs`);
* `parseVersionIdFromUpload` / `parseWranglerOutput` — the output extractors;
* `buildDefaultMessage` / `buildDefaultTag` — default message/tag synthesis;
* `collect`-style metadata derivations (owner/repo split, short commit message);
* `run`              — the deployment orchestrator, as a pure function of the
                       action inputs, the collected metadata and an oracle for
                       the external `exec` collaborator.

JavaScript strings are modelled as `List Char` / `String`; `undefined`-able
values as `Option`; the JavaScript `\s` character class as `isJsSpace` (by
code point).  Regular-expression matching in the source is replaced by
equivalent explicit scanners, which are proved against declarative
specifications below.
-/

/-- The JavaScript `\s` (and `String.prototype.trim`) whitespace class,
decided on the character's code point: tab, LF, VT, FF, CR, space, NBSP,
Ogham space mark, the U+2000–U+200A range, LS, PS, NNBSP, MMSP, ideographic
space, and the BOM. -/
def isJsSpace (c : Char) : Bool :=
  c.toNat = 0x09 || c.toNat = 0x0A || c.toNat = 0x0B || c.toNat = 0x0C ||
  c.toNat = 0x0D || c.toNat = 0x20 || c.toNat = 0xA0 || c.toNat = 0x1680 ||
  (0x2000 ≤ c.toNat && c.toNat ≤ 0x200A) || c.toNat = 0x2028 ||
  c.toNat = 0x2029 || c.toNat = 0x202F || c.toNat = 0x205F ||
  c.toNat = 0x3000 || c.toNat = 0xFEFF

/-- The character class `[a-zA-Z0-9_]` of the template-placeholder regex in
`renderTemplate`, decided on the code point. -/
def isNameChar (c : Char) : Bool :=
  (0x30 ≤ c.toNat && c.toNat ≤ 0x39) || (0x41 ≤ c.toNat && c.toNat ≤ 0x5A) ||
  (0x61 ≤ c.toNat && c.toNat ≤ 0x7A) || c.toNat = 0x5F

/-- The character class `[0-9a-fA-F-]` of the version-id regex in
`parseVersionIdFromUpload`: hexadecimal digits and the hyphen. -/
def isHexDashChar (c : Char) : Bool :=
  (0x30 ≤ c.toNat && c.toNat ≤ 0x39) || (0x61 ≤ c.toNat && c.toNat ≤ 0x66) ||
  (0x41 ≤ c.toNat && c.toNat ≤ 0x46) || c.toNat = 0x2D

/-- JavaScript `String.prototype.trim` on the character list: drop the
whitespace run at both ends. -/
def jsTrim (l : List Char) : List Char :=
  ((l.dropWhile isJsSpace).reverse.dropWhile isJsSpace).reverse

/-- `trim` lifted to `String`. -/
def jsTrimStr (s : String) : String :=
  String.mk (jsTrim s.data)

/-- ASCII lowering, the fragment of `String.prototype.toLowerCase` the action
relies on (the `only_upload` flag is compared against the ASCII word
`"true"`). -/
def toLowerAscii (s : String) : String :=
  String.mk (s.data.map fun c =>
    if 0x41 ≤ c.toNat ∧ c.toNat ≤ 0x5A then Char.ofNat (c.toNat + 0x20) else c)

/-- JavaScript `a || b` on an optional string `a` (both `undefined` and the
empty string are falsy). -/
def jsOr (a : Option String) (b : String) : String :=
  match a with
  | none => b
  | some s => if s = "" then b else s

/-- The template context: a map from placeholder name to an optional string,
as in `type TemplateContext = Record<string, string | undefined>`. -/
def TemplateContext : Type := String → Option String

/-- `context[key] !== undefined ? String(context[key]) : ""` — the
substitution performed for one placeholder. -/
def lookupCtx (ctx : TemplateContext) (key : String) : String :=
  (ctx key).getD ""

/-- One attempted match of the placeholder regex `{{\s*([a-zA-Z0-9_]+)\s*}}`
anchored at the head of the list: two opening braces, optional whitespace, a
non-empty run of name characters, optional whitespace, two closing braces.
On success it returns the captured name and the characters after the match.
(The regex is deterministic at a fixed start position because the whitespace
and name classes are disjoint, so greedy matching never backtracks.) -/
def parseAt : List Char → Option (String × List Char)
  | c1 :: c2 :: rest =>
    if c1 = '\x7b' ∧ c2 = '\x7b' then
      match (rest.dropWhile isJsSpace).takeWhile isNameChar,
            ((rest.dropWhile isJsSpace).dropWhile isNameChar).dropWhile isJsSpace with
      | nm :: nms, c3 :: c4 :: r3 =>
        if c3 = '\x7d' ∧ c4 = '\x7d' then some (String.mk (nm :: nms), r3) else none
      | _, _ => none
    else none
  | _ => none

theorem length_dropWhile_le (p : Char → Bool) (l : List Char) :
    (l.dropWhile p).length ≤ l.length := by
  induction l with
  | nil => simp
  | cons c cs ih =>
    by_cases h : p c
    · simp only [List.dropWhile_cons_of_pos h]
      exact Nat.le_succ_of_le ih
    · simp [List.dropWhile_cons_of_neg h]

theorem parseAt_rest_lt {l r : List Char} {n : String}
    (h : parseAt l = some (n, r)) : r.length < l.length := by
  match l with
  | [] => simp [parseAt] at h
  | [c] => simp [parseAt] at h
  | c1 :: c2 :: rest =>
    simp only [parseAt] at h
    split at h
    · split at h
      · next nm nms c3 c4 r3 heq1 heq2 =>
        split at h
        · simp only [Option.some.injEq, Prod.mk.injEq] at h
          obtain ⟨-, h2⟩ := h
          subst h2
          have hle : (((rest.dropWhile isJsSpace).dropWhile isNameChar).dropWhile
              isJsSpace).length ≤ rest.length := by
            calc (((rest.dropWhile isJsSpace).dropWhile isNameChar).dropWhile
                isJsSpace).length
                ≤ ((rest.dropWhile isJsSpace).dropWhile isNameChar).length :=
                  length_dropWhile_le _ _
              _ ≤ (rest.dropWhile isJsSpace).length := length_dropWhile_le _ _
              _ ≤ rest.length := length_dropWhile_le _ _
          rw [heq2] at hle
          simp only [List.length_cons] at hle
          simp only [List.length_cons]
          omega
        · exact absurd h (by simp)
      · exact absurd h (by simp)
    · exact absurd h (by simp)

/-- The body of `renderTemplate`: scan the template left to right; at each
position replace the leftmost regex match by the context value (empty when
the key is absent or `undefined`) and continue after it, passing every
non-matching character through unchanged — the semantics of
`template.replace(/{{\s*([a-zA-Z0-9_]+)\s*}}/g, ...)`. -/
def renderChars (ctx : TemplateContext) : List Char → List Char
  | [] => []
  | c :: cs =>
    match hp : parseAt (c :: cs) with
    | some (name, rest) => (lookupCtx ctx name).data ++ renderChars ctx rest
    | none => c :: renderChars ctx cs
termination_by l => l.length
decreasing_by
  · exact parseAt_rest_lt hp
  · simp

/-- `renderTemplate(template, context)` from src/index.ts. -/
def renderTemplate (template : String) (ctx : TemplateContext) : String :=
  String.mk (renderChars ctx template.data)

/-- The loop of `splitArgs` from src/index.ts, one step per character:
`cur` is the token being accumulated (`current`), the third argument the
quote state (`quote`).  Inside quotes the matching quote closes (and is
dropped), anything else is content; outside quotes a quote character opens a
quoted run, whitespace ends the current token (if non-empty), anything else
is appended.  At end of input the pending token is pushed if non-empty. -/
def splitArgsGo : List Char → List Char → Option Char → List (List Char)
  | [], cur, _ => if cur = [] then [] else [cur]
  | c :: cs, cur, some q =>
    if c = q then splitArgsGo cs cur none
    else splitArgsGo cs (cur ++ [c]) (some q)
  | c :: cs, cur, none =>
    if c = '\x27' ∨ c = '\x22' then splitArgsGo cs cur (some c)
    else if isJsSpace c then
      if cur = [] then splitArgsGo cs [] none
      else cur :: splitArgsGo cs [] none
    else splitArgsGo cs (cur ++ [c]) none

/-- `splitArgs(raw)` from src/index.ts: empty for blank input
(`if (!raw.trim()) return []`), otherwise the state-machine split. -/
def splitArgs (raw : String) : List String :=
  if jsTrim raw.data = [] then []
  else (splitArgsGo raw.data [] none).map String.mk

/-- Spec-side reading of a quoted run: the literal content up to the matching
quote character (which is consumed), closing implicitly at end of string. -/
def readQuoted (q : Char) : List Char → List Char × List Char
  | [] => ([], [])
  | c :: cs =>
    if c = q then ([], cs)
    else
      let m := readQuoted q cs
      (c :: m.1, m.2)

theorem readQuoted_rest_le (q : Char) (l : List Char) :
    (readQuoted q l).2.length ≤ l.length := by
  induction l with
  | nil => simp [readQuoted]
  | cons c cs ih =>
    simp only [readQuoted]
    split
    · simp
    · simpa using Nat.le_succ_of_le ih

/-- Spec-side reading of one maximal word: characters up to the next
unquoted whitespace (or the end), with quoted runs contributing their
content and the quote characters themselves consumed.  Returns the word and
the unread remainder (which starts with whitespace or is empty). -/
def readToken : List Char → List Char × List Char
  | [] => ([], [])
  | c :: cs =>
    if isJsSpace c then ([], c :: cs)
    else if c = '\x27' ∨ c = '\x22' then
      ((readQuoted c cs).1 ++ (readToken (readQuoted c cs).2).1,
       (readToken (readQuoted c cs).2).2)
    else (c :: (readToken cs).1, (readToken cs).2)
termination_by l => l.length
decreasing_by
  all_goals
    first
      | exact Nat.lt_succ_of_le (readQuoted_rest_le _ _)
      | exact Nat.lt_succ_of_le (Nat.le_refl _)

set_option maxHeartbeats 2000000 in
theorem readToken_nil : readToken [] = ([], []) := by
  rw [readToken.eq_def]

theorem readToken_cons (c : Char) (cs : List Char) :
    readToken (c :: cs) =
      if isJsSpace c then ([], c :: cs)
      else if c = '\x27' ∨ c = '\x22' then
        ((readQuoted c cs).1 ++ (readToken (readQuoted c cs).2).1,
         (readToken (readQuoted c cs).2).2)
      else ((c :: (readToken cs).1), (readToken cs).2) := by
  rw [readToken.eq_def]

theorem readToken_rest_le (l : List Char) : (readToken l).2.length ≤ l.length := by
  induction l using readToken.induct with
  | case1 => rw [readToken_nil]
  | case2 c cs h => rw [readToken_cons, if_pos h]
  | case3 c cs h1 h2 ih =>
    rw [readToken_cons, if_neg (by simp [h1]), if_pos h2]
    have := readQuoted_rest_le c cs
    simp only [List.length_cons]
    omega
  | case4 c cs h1 h2 ih =>
    rw [readToken_cons, if_neg (by simp [h1]), if_neg h2]
    simp only [List.length_cons]
    omega

theorem readToken_rest_lt {c : Char} {cs : List Char} (h : isJsSpace c = false) :
    (readToken (c :: cs)).2.length < (c :: cs).length := by
  rw [readToken_cons, if_neg (by simp [h])]
  split
  · have h1 := readQuoted_rest_le c cs
    have h2 := readToken_rest_le (readQuoted c cs).2
    simp only [List.length_cons]
    omega
  · have h2 := readToken_rest_le cs
    simp only [List.length_cons]
    omega

/-- Spec-side tokenisation, written the way §4.2 of the spec reads: skip
runs of whitespace, read one maximal (possibly quoted) word at a time, and
keep the non-empty words in order. -/
def sTokens : List Char → List (List Char)
  | [] => []
  | c :: cs =>
    if isJsSpace c then sTokens cs
    else
      if (readToken (c :: cs)).1 = [] then sTokens (readToken (c :: cs)).2
      else (readToken (c :: cs)).1 :: sTokens (readToken (c :: cs)).2
termination_by l => l.length
decreasing_by
  · simp
  · rename_i hws _hemp
    have := @readToken_rest_lt c cs (by simpa using hws)
    simpa using this
  · rename_i hws _hemp
    have := @readToken_rest_lt c cs (by simpa using hws)
    simpa using this

set_option maxHeartbeats 2000000 in
theorem sTokens_nil : sTokens [] = [] := by
  rw [sTokens.eq_def]

theorem sTokens_cons (c : Char) (cs : List Char) :
    sTokens (c :: cs) =
      if isJsSpace c then sTokens cs
      else
        if (readToken (c :: cs)).1 = [] then sTokens (readToken (c :: cs)).2
        else (readToken (c :: cs)).1 :: sTokens (readToken (c :: cs)).2 := by
  rw [sTokens.eq_def]

/-- The Argument Tokenizer contract of §4.2 as one function: an ordered list
of the non-empty words of the raw string, split on runs of whitespace except
inside single- or double-quoted runs, quote characters consumed, an
unterminated quote closing implicitly at end of string. -/
def splitArgsSpec (raw : String) : List String :=
  (sTokens raw.data).map String.mk

/-- Drop a literal character sequence `pat` from the front of `l`, or fail. -/
def dropLit : List Char → List Char → Option (List Char)
  | [], l => some l
  | _ :: _, [] => none
  | p :: ps, c :: cs => if c = p then dropLit ps cs else none

/-- The fixed label phrase of the version-id regex. -/
def versionLabel : List Char := "Worker Version ID:".data

/-- One attempted match of `/Worker Version ID:\s*([0-9a-fA-F-]+)/` anchored
at the head of the list: the literal label, optional whitespace, then the
captured maximal non-empty run of hexadecimal-or-hyphen characters. -/
def matchVersionIdAt (l : List Char) : Option String :=
  match dropLit versionLabel l with
  | none => none
  | some r =>
    match ((r.dropWhile isJsSpace).takeWhile isHexDashChar) with
    | [] => none
    | d :: ds => some (String.mk (d :: ds))

/-- Scan for the leftmost match of the version-id regex. -/
def versionIdScan : List Char → Option String
  | [] => none
  | c :: cs =>
    match matchVersionIdAt (c :: cs) with
    | some s => some s
    | none => versionIdScan cs

/-- `parseVersionIdFromUpload(output)` from src/index.ts:
`output.match(/Worker Version ID:\s*([0-9a-fA-F-]+)/)` and the first capture
group, or `undefined` when there is no match. -/
def parseVersionIdFromUpload (output : String) : Option String :=
  versionIdScan output.data

/-- A character the URL regex body class `[^\s"]` accepts. -/
def isUrlBodyChar (c : Char) : Bool :=
  !(isJsSpace c) && !(c = '\x22')

/-- One attempted match of `/https?:\/\/[^\s"]+/` anchored at the head of
the list: the literal `http`, an optional `s`, the literal `://`, then the
maximal non-empty run of non-whitespace, non-double-quote characters.  The
returned string is the whole matched text. -/
def matchUrlAt (l : List Char) : Option String :=
  match dropLit "http".data l with
  | none => none
  | some r1 =>
    match dropLit "s://".data r1 with
    | some r2 =>
      match r2.takeWhile isUrlBodyChar with
      | [] => none
      | d :: ds => some (String.mk ("https://".data ++ (d :: ds)))
    | none =>
      match dropLit "://".data r1 with
      | none => none
      | some r2 =>
        match r2.takeWhile isUrlBodyChar with
        | [] => none
        | d :: ds => some (String.mk ("http://".data ++ (d :: ds)))

/-- Scan for the leftmost match of the URL regex. -/
def urlScan : List Char → Option String
  | [] => none
  | c :: cs =>
    match matchUrlAt (c :: cs) with
    | some s => some s
    | none => urlScan cs

/-- `parseWranglerOutput(output).deploymentUrl` from src/index.ts: the first
`http(s)://…` looking substring of the captured deploy output, stopping at
whitespace or a double quote. -/
def parseWranglerOutputUrl (output : String) : Option String :=
  urlScan output.data

/-- The `DeployMetadata` interface of src/index.ts: every field optional. -/
structure DeployMetadata where
  owner : Option String := none
  repo : Option String := none
  ref : Option String := none
  branch : Option String := none
  sha : Option String := none
  short_sha : Option String := none
  actor : Option String := none
  run_id : Option String := none
  run_number : Option String := none
  commit_message : Option String := none
  short_commit_message : Option String := none

/-- `buildDefaultMessage(meta)` from src/index.ts:
`branch@shortSha: short-commit-message`, using whichever parts are
available (JavaScript `||` falsiness on the optional fields), truncated by
`.slice(0, 100)`. -/
def buildDefaultMessage (meta : DeployMetadata) : String :=
  let branch := jsOr meta.branch ""
  let shortSha :=
    jsOr meta.short_sha
      (match meta.sha with
       | none => ""
       | some s => if s = "" then "" else String.mk (s.data.take 6))
  let baseMessage := jsOr meta.short_commit_message (jsOr meta.commit_message "")
  let pfx :=
    if branch ≠ "" then
      if shortSha ≠ "" then branch ++ "@" ++ shortSha else branch
    else if shortSha ≠ "" then shortSha
    else ""
  let combined := if pfx ≠ "" then pfx ++ ": " ++ baseMessage else baseMessage
  String.mk (combined.data.take 100)

/-- `buildDefaultTag(meta)` from src/index.ts: the action generates no
default tag. -/
def buildDefaultTag (_ : DeployMetadata) : String := ""

/-- JavaScript `String.prototype.split` with a one-character separator:
every separator occurrence splits, and empty segments are kept. -/
def splitCh (sep : Char) : List Char → List (List Char)
  | [] => [[]]
  | c :: cs =>
    match splitCh sep cs with
    | [] => [[]]
    | t :: ts => if c = sep then [] :: t :: ts else (c :: t) :: ts

/-- The owner/repo derivation of `collectMetadata` (src/index.ts) as a pure
function of the `GITHUB_REPOSITORY` environment value:
`repoFull ? repoFull.split("/") : [undefined, undefined]` destructured into
its first two elements. -/
def ownerRepoOfEnv (repoFull : Option String) : Option String × Option String :=
  match repoFull with
  | none => (none, none)
  | some s =>
    if s = "" then (none, none)
    else
      (((splitCh '/' s.data).map String.mk).get? 0,
       ((splitCh '/' s.data).map String.mk).get? 1)

/-- `message.split("\n")[0]`: the first line of a string. -/
def firstLineStr (s : String) : String :=
  String.mk (((splitCh '\x0a' s.data).headD []))

/-- The short-commit-message derivation of `collectMetadata` in the
orchestrator (src/index.ts): `commit_message ? commit_message.split("\n")[0]
: undefined` — the first line, NOT trimmed. -/
def shortCommitOfMessage (cm : Option String) : Option String :=
  match cm with
  | none => none
  | some m => if m = "" then none else some (firstLineStr m)

/-- The short-commit-message derivation of `collectDeployMetadata`
(src/metadata.ts): `commit_message ? commit_message.split("\n")[0].trim()
: undefined` — the first line, trimmed. -/
def shortCommitOfMessageMeta (cm : Option String) : Option String :=
  match cm with
  | none => none
  | some m => if m = "" then none else some (jsTrimStr (firstLineStr m))

/-- The action's inputs, all strings as in GitHub Actions; an unset optional
input is the empty string (`core.getInput` returns `""`). -/
structure Inputs where
  api_token : String
  wrangler_command : String
  working_directory : String := ""
  only_upload : String := ""
  config : String
  upload_args : String := ""
  deploy_args : String := ""
  message_template : String := ""
  tag_template : String := ""

/-- What one external invocation returns: the exit code and the captured
stdout text. -/
structure ExecResult where
  exitCode : Int
  stdout : String

/-- The oracle for the `exec.exec` collaborator: command and argument list
in, exit code and captured stdout out. -/
def ExecOracle : Type := String → List String → ExecResult

/-- The observable outcome of a run: the `core.setFailed` message if any,
the `core.setOutput` pairs in order, and the external invocations made in
order (command with argument list). -/
structure RunOutcome where
  failed : Option String
  outputs : List (String × String)
  invocations : List (String × List String)
deriving DecidableEq

/-- `onlyUpload` as computed in `run`:
`(core.getInput("only_upload") || "false").toLowerCase() === "true"`. -/
def onlyUploadOf (inp : Inputs) : Bool :=
  toLowerAscii (if inp.only_upload = "" then "false" else inp.only_upload) = "true"

/-- The trimmed wrangler command used for both invocations. -/
def wcOf (inp : Inputs) : String := jsTrimStr inp.wrangler_command

/-- The pre-upload template context: the metadata spread plus
`deployment_url`/`version_id` present but `undefined`. -/
def preCtx (md : DeployMetadata) : TemplateContext := fun k =>
  if k = "owner" then md.owner
  else if k = "repo" then md.repo
  else if k = "ref" then md.ref
  else if k = "branch" then md.branch
  else if k = "sha" then md.sha
  else if k = "short_sha" then md.short_sha
  else if k = "actor" then md.actor
  else if k = "run_id" then md.run_id
  else if k = "run_number" then md.run_number
  else if k = "commit_message" then md.commit_message
  else if k = "short_commit_message" then md.short_commit_message
  else none

/-- The rendered deployment message: the rendered `message_template` when
one was supplied, else the synthesized default. -/
def msgOf (inp : Inputs) (md : DeployMetadata) : String :=
  if inp.message_template ≠ "" then renderTemplate inp.message_template (preCtx md)
  else buildDefaultMessage md

/-- The rendered tag: the rendered `tag_template` when one was supplied,
else the (empty) default tag. -/
def tagOf (inp : Inputs) (md : DeployMetadata) : String :=
  if inp.tag_template ≠ "" then renderTemplate inp.tag_template (preCtx md)
  else buildDefaultTag md

/-- The argument list of the upload invocation:
`["versions", "upload", "--config", config, ...uploadArgsList,
"--message=<rendered>"]`. -/
def uploadArgsOf (inp : Inputs) (md : DeployMetadata) : List String :=
  ["versions", "upload", "--config", inp.config] ++ splitArgs inp.upload_args ++
    ["--message=" ++ msgOf inp md]

/-- The argument list of the deploy invocation:
`["versions", "deploy", versionId, "-y", "--config", config,
...deployArgsList, "--message=<rendered>"]`. -/
def deployArgsOf (inp : Inputs) (md : DeployMetadata) (vid : String) : List String :=
  ["versions", "deploy", vid, "-y", "--config", inp.config] ++
    splitArgs inp.deploy_args ++ ["--message=" ++ msgOf inp md]

/-- The outputs published by the upload-only branch: `version_id` when one
was parsed, then `message` and `tag` when non-empty. -/
def onlyUploadOutputs (inp : Inputs) (md : DeployMetadata)
    (vid : Option String) : List (String × String) :=
  (match vid with
   | some v => [("version_id", v)]
   | none => []) ++
  (if msgOf inp md ≠ "" then [("message", msgOf inp md)] else []) ++
  (if tagOf inp md ≠ "" then [("tag", tagOf inp md)] else [])

/-- The outputs published after a successful deploy: `deployment_url` when
one was detected, then `version_id`, then `message` and `tag` when
non-empty. -/
def deployOutputs (inp : Inputs) (md : DeployMetadata) (vid : String)
    (url : Option String) : List (String × String) :=
  (match url with
   | some u => [("deployment_url", u)]
   | none => []) ++
  [("version_id", vid)] ++
  (if msgOf inp md ≠ "" then [("message", msgOf inp md)] else []) ++
  (if tagOf inp md ≠ "" then [("tag", tagOf inp md)] else [])

/-- The `run()` orchestrator of src/index.ts as a pure function of the
inputs, the collected metadata and the exec oracle.  Modelled observables:
the fatal-failure message, the published outputs, and the sequence of
external invocations.  `core.getInput(name, { required: true })` throwing on
an unset input is modelled by the early `Input required` failures (the
top-level catch reports the thrown message through `core.setFailed`);
logging, the credential environment injection and the working-directory
wiring are observability-only and not modelled. -/
def run (inp : Inputs) (md : DeployMetadata) (execF : ExecOracle) : RunOutcome :=
  if inp.api_token = "" then
    ⟨some "Input required and not supplied: api_token", [], []⟩
  else if inp.wrangler_command = "" then
    ⟨some "Input required and not supplied: wrangler_command", [], []⟩
  else if inp.config = "" then
    ⟨some "Input required and not supplied: config", [], []⟩
  else
    let ur := execF (wcOf inp) (uploadArgsOf inp md)
    if ur.exitCode ≠ 0 then
      ⟨some ("wrangler versions upload failed with exit code " ++
          toString ur.exitCode ++ ". See logs above for details."),
       [], [(wcOf inp, uploadArgsOf inp md)]⟩
    else
      if onlyUploadOf inp then
        ⟨none, onlyUploadOutputs inp md (parseVersionIdFromUpload ur.stdout),
         [(wcOf inp, uploadArgsOf inp md)]⟩
      else
        match parseVersionIdFromUpload ur.stdout with
        | none =>
          ⟨some "Failed to parse Worker Version ID from wrangler versions upload output.",
           [], [(wcOf inp, uploadArgsOf inp md)]⟩
        | some v =>
            let dr := execF (wcOf inp) (deployArgsOf inp md v)
            if dr.exitCode ≠ 0 then
              ⟨some ("wrangler versions deploy failed with exit code " ++
                  toString dr.exitCode ++ ". See logs above for details."),
               [],
               [(wcOf inp, uploadArgsOf inp md),
                (wcOf inp, deployArgsOf inp md v)]⟩
            else
              ⟨none,
               deployOutputs inp md v (parseWranglerOutputUrl dr.stdout),
               [(wcOf inp, uploadArgsOf inp md),
                (wcOf inp, deployArgsOf inp md v)]⟩

theorem nameChar_not_ws {c : Char} (h : isNameChar c = true) : isJsSpace c = false := by
  by_contra hh
  rw [Bool.not_eq_false] at hh
  simp only [isNameChar, Bool.or_eq_true, Bool.and_eq_true, decide_eq_true_eq] at h
  simp only [isJsSpace, Bool.or_eq_true, Bool.and_eq_true, decide_eq_true_eq] at hh
  omega

theorem hexDash_not_ws {c : Char} (h : isHexDashChar c = true) : isJsSpace c = false := by
  by_contra hh
  rw [Bool.not_eq_false] at hh
  simp only [isHexDashChar, Bool.or_eq_true, Bool.and_eq_true, decide_eq_true_eq] at h
  simp only [isJsSpace, Bool.or_eq_true, Bool.and_eq_true, decide_eq_true_eq] at hh
  omega

theorem ws_not_nameChar {c : Char} (h : isJsSpace c = true) : isNameChar c = false := by
  by_contra hh
  rw [Bool.not_eq_false] at hh
  exact absurd h (by rw [nameChar_not_ws hh]; simp)

theorem ws_not_hexDash {c : Char} (h : isJsSpace c = true) : isHexDashChar c = false := by
  by_contra hh
  rw [Bool.not_eq_false] at hh
  exact absurd h (by rw [hexDash_not_ws hh]; simp)

/-- A placeholder occurrence anchored at the head of a character list, in
the words of the spec: `{{`, optional whitespace, a non-empty name of
alphanumeric-or-underscore characters, optional whitespace, `}}`, and then
the rest of the template. -/
def IsPlaceholderAt (l name rest : List Char) : Prop :=
  ∃ ws1 ws2,
    l = '\x7b' :: '\x7b' :: (ws1 ++ name ++ ws2 ++ '\x7d' :: '\x7d' :: rest) ∧
    ws1.all isJsSpace = true ∧ name ≠ [] ∧ name.all isNameChar = true ∧
    ws2.all isJsSpace = true

theorem parseAt_sound {l r : List Char} {n : String}
    (h : parseAt l = some (n, r)) :
    ∃ name, IsPlaceholderAt l name r ∧ n = String.mk name := by
  match l with
  | [] => simp [parseAt] at h
  | [c] => simp [parseAt] at h
  | c1 :: c2 :: rest =>
    simp only [parseAt] at h
    split at h
    · next hbr =>
      obtain ⟨rfl, rfl⟩ := hbr
      split at h
      · next nm nms c3 c4 r3 heq1 heq2 =>
        split at h
        · next hbr2 =>
          obtain ⟨rfl, rfl⟩ := hbr2
          simp only [Option.some.injEq, Prod.mk.injEq] at h
          obtain ⟨rfl, rfl⟩ := h
          refine ⟨nm :: nms, ⟨rest.takeWhile isJsSpace,
            ((rest.dropWhile isJsSpace).dropWhile isNameChar).takeWhile isJsSpace,
            ?_, ?_, by simp, ?_, ?_⟩, rfl⟩
          · have e1 : rest.takeWhile isJsSpace ++ rest.dropWhile isJsSpace = rest :=
              List.takeWhile_append_dropWhile isJsSpace rest
            have e2 : (nm :: nms) ++ (rest.dropWhile isJsSpace).dropWhile isNameChar =
                rest.dropWhile isJsSpace := by
              rw [← heq1]; exact List.takeWhile_append_dropWhile isNameChar _
            have e3 : ((rest.dropWhile isJsSpace).dropWhile isNameChar).takeWhile
                  isJsSpace ++ ('\x7d' :: '\x7d' :: r3) =
                (rest.dropWhile isJsSpace).dropWhile isNameChar := by
              rw [← heq2]; exact List.takeWhile_append_dropWhile isJsSpace _
            simp only [List.cons.injEq, true_and]
            rw [List.append_assoc, List.append_assoc, e3, e2, e1]
          · exact List.all_takeWhile
          · rw [← heq1]; exact List.all_takeWhile
          · exact List.all_takeWhile
        · exact absurd h (by simp)
      · exact absurd h (by simp)
    · exact absurd h (by simp)

theorem takeWhile_append_nil {p : Char → Bool} {x y : List Char}
    (hx : x.all p = true) (hy : y.takeWhile p = []) :
    (x ++ y).takeWhile p = x := by
  rw [List.takeWhile_append_of_pos (by simpa [List.all_eq_true] using hx), hy,
    List.append_nil]

theorem dropWhile_cons_head {p : Char → Bool} {c : Char} {cs : List Char}
    (h : p c = false) : (c :: cs).dropWhile p = c :: cs :=
  List.dropWhile_cons_of_neg (by simp [h])

theorem parseAt_complete {l name rest : List Char}
    (h : IsPlaceholderAt l name rest) :
    parseAt l = some (String.mk name, rest) := by
  obtain ⟨ws1, ws2, rfl, hws1, hname, hnameall, hws2⟩ := h
  match name, hname with
  | n0 :: ns, _ =>
    have hn0 : isNameChar n0 = true := by
      simp only [List.all_eq_true] at hnameall
      exact hnameall n0 (by simp)
    have hdrop1 : (ws1 ++ (n0 :: ns) ++ ws2 ++ '\x7d' :: '\x7d' :: rest).dropWhile
        isJsSpace = (n0 :: ns) ++ ws2 ++ '\x7d' :: '\x7d' :: rest := by
      rw [List.append_assoc, List.append_assoc,
        List.dropWhile_append_of_pos (by simpa [List.all_eq_true] using hws1),
        ← List.append_assoc]
      exact dropWhile_cons_head (nameChar_not_ws hn0)
    have htk : (ws2 ++ '\x7d' :: '\x7d' :: rest).takeWhile isNameChar = [] := by
      match ws2, hws2 with
      | [], _ =>
        simp [List.takeWhile_cons, show isNameChar '\x7d' = false from by decide]
      | w :: ws, hws2 =>
        have hw : isJsSpace w = true := by
          simp only [List.all_eq_true] at hws2
          exact hws2 w (by simp)
        simp [List.takeWhile_cons, ws_not_nameChar hw]
    have hdk : (ws2 ++ '\x7d' :: '\x7d' :: rest).dropWhile isNameChar =
        ws2 ++ '\x7d' :: '\x7d' :: rest := by
      match ws2, hws2 with
      | [], _ =>
        simp only [List.nil_append]
        exact dropWhile_cons_head (by decide)
      | w :: ws, hws2 =>
        have hw : isJsSpace w = true := by
          simp only [List.all_eq_true] at hws2
          exact hws2 w (by simp)
        exact dropWhile_cons_head (ws_not_nameChar hw)
    have hdrop2 : (ws2 ++ '\x7d' :: '\x7d' :: rest).dropWhile isJsSpace =
        '\x7d' :: '\x7d' :: rest := by
      rw [List.dropWhile_append_of_pos (by simpa [List.all_eq_true] using hws2)]
      exact dropWhile_cons_head (by decide)
    have d1 : ((ws1 ++ ((n0 :: ns) ++ (ws2 ++ '\x7d' :: '\x7d' :: rest))).dropWhile
          isJsSpace).takeWhile isNameChar = n0 :: ns := by
      rw [show ws1 ++ ((n0 :: ns) ++ (ws2 ++ '\x7d' :: '\x7d' :: rest)) =
          ws1 ++ (n0 :: ns) ++ ws2 ++ '\x7d' :: '\x7d' :: rest by simp, hdrop1,
        List.append_assoc]
      exact takeWhile_append_nil hnameall htk
    have d2 : (((ws1 ++ ((n0 :: ns) ++ (ws2 ++ '\x7d' :: '\x7d' :: rest))).dropWhile
          isJsSpace).dropWhile isNameChar).dropWhile isJsSpace =
        '\x7d' :: '\x7d' :: rest := by
      rw [show ws1 ++ ((n0 :: ns) ++ (ws2 ++ '\x7d' :: '\x7d' :: rest)) =
          ws1 ++ (n0 :: ns) ++ ws2 ++ '\x7d' :: '\x7d' :: rest by simp, hdrop1,
        List.append_assoc,
        List.dropWhile_append_of_pos (by simpa [List.all_eq_true] using hnameall),
        hdk]
      exact hdrop2
    simp only [List.cons_append] at d1 d2
    simp [parseAt, d1, d2]

theorem parseAt_none_no_placeholder {l : List Char} (h : parseAt l = none) :
    ∀ name rest, ¬ IsPlaceholderAt l name rest := by
  intro name rest hph
  rw [parseAt_complete hph] at h
  exact absurd h (by simp)

/-- The Template Renderer contract of §4.1 as a relation between a template
and its rendering: the empty template renders to the empty string; a
placeholder occurrence at the head renders to the context's value for its
name (empty when absent or undefined) followed by the rendering of the
rest; a head character that starts no placeholder is passed through
unchanged. -/
inductive RendersSpec (ctx : TemplateContext) : List Char → List Char → Prop
  | nil : RendersSpec ctx [] []
  | ph {l name rest out} (hph : IsPlaceholderAt l name rest)
      (htail : RendersSpec ctx rest out) :
      RendersSpec ctx l ((lookupCtx ctx (String.mk name)).data ++ out)
  | lit {c cs out} (hnot : ∀ name rest, ¬ IsPlaceholderAt (c :: cs) name rest)
      (htail : RendersSpec ctx cs out) :
      RendersSpec ctx (c :: cs) (c :: out)

set_option maxHeartbeats 2000000 in
theorem renderChars_nil (ctx : TemplateContext) : renderChars ctx [] = [] := by
  rw [renderChars.eq_def]

theorem renderChars_pos {ctx : TemplateContext} {c : Char} {cs : List Char}
    {n : String} {r : List Char} (h : parseAt (c :: cs) = some (n, r)) :
    renderChars ctx (c :: cs) = (lookupCtx ctx n).data ++ renderChars ctx r := by
  rw [renderChars.eq_def]
  split
  · next heq => exact absurd heq (by simp)
  · next c' cs' heq =>
    obtain ⟨rfl, rfl⟩ : c = c' ∧ cs = cs' := by
      injection heq with h1 h2; exact ⟨h1, h2⟩
    split
    · next nm rs hm =>
      rw [hm] at h
      simp only [Option.some.injEq, Prod.mk.injEq] at h
      obtain ⟨rfl, rfl⟩ := h
      rfl
    · next hm =>
      rw [hm] at h
      exact absurd h (by simp)

theorem renderChars_neg {ctx : TemplateContext} {c : Char} {cs : List Char}
    (h : parseAt (c :: cs) = none) :
    renderChars ctx (c :: cs) = c :: renderChars ctx cs := by
  rw [renderChars.eq_def]
  split
  · next heq => exact absurd heq (by simp)
  · next c' cs' heq =>
    obtain ⟨rfl, rfl⟩ : c = c' ∧ cs = cs' := by
      injection heq with h1 h2; exact ⟨h1, h2⟩
    split
    · next nm rs hm =>
      rw [hm] at h
      exact absurd h (by simp)
    · rfl

theorem renderChars_renders (ctx : TemplateContext) (l : List Char) :
    RendersSpec ctx l (renderChars ctx l) := by
  have H : ∀ n (l : List Char), l.length = n → RendersSpec ctx l (renderChars ctx l) := by
    intro n
    induction n using Nat.strong_induction_on with
    | _ n ih =>
      intro l hn
      subst hn
      match l with
      | [] => rw [renderChars_nil]; exact RendersSpec.nil
      | c :: cs =>
        match hp : parseAt (c :: cs) with
        | some (nm, r) =>
          rw [renderChars_pos hp]
          obtain ⟨name, hph, rfl⟩ := parseAt_sound hp
          exact RendersSpec.ph hph
            (ih r.length (parseAt_rest_lt hp) r rfl)
        | none =>
          rw [renderChars_neg hp]
          exact RendersSpec.lit (parseAt_none_no_placeholder hp)
            (ih cs.length (by simp) cs rfl)
  exact H l.length l rfl

/-- No suffix of the template starts a placeholder occurrence. -/
def NoPlaceholder (t : String) : Prop :=
  ∀ l ∈ t.data.tails, ∀ name rest, ¬ IsPlaceholderAt l name rest

theorem renderChars_id_of_no_placeholder {ctx : TemplateContext} {l : List Char}
    (h : ∀ s ∈ l.tails, parseAt s = none) : renderChars ctx l = l := by
  induction l with
  | nil => exact renderChars_nil ctx
  | cons c cs ih =>
    rw [renderChars_neg (h (c :: cs) (by simp))]
    rw [ih fun s hs => h s (by
      rw [List.mem_tails] at hs ⊢
      exact hs.trans (List.suffix_cons c cs))]

theorem ws_not_quote {c : Char} (h : isJsSpace c = true) :
    ¬ (c = '\x27' ∨ c = '\x22') := by
  rintro (rfl | rfl) <;> simp [isJsSpace] at h

theorem splitArgsGo_quote (q : Char) (l : List Char) :
    ∀ cur, splitArgsGo l cur (some q) =
      splitArgsGo (readQuoted q l).2 (cur ++ (readQuoted q l).1) none := by
  induction l with
  | nil => intro cur; simp [readQuoted, splitArgsGo]
  | cons c cs ih =>
    intro cur
    by_cases hc : c = q
    · subst hc
      simp [splitArgsGo, readQuoted]
    · simp only [splitArgsGo, if_neg hc, readQuoted, ih (cur ++ [c])]
      rw [List.append_assoc]
      simp

/-- Pushing one finished word: dropped when empty, kept otherwise. -/
def pushWord (w : List Char) (ts : List (List Char)) : List (List Char) :=
  if w = [] then ts else w :: ts

theorem words_eq_sTokens (l : List Char) :
    pushWord (readToken l).1 (sTokens (readToken l).2) = sTokens l := by
  match l with
  | [] => simp [readToken_nil, sTokens_nil, pushWord]
  | c :: cs =>
    by_cases hws : isJsSpace c
    · rw [readToken_cons, if_pos hws]
      simp [pushWord]
    · rw [sTokens_cons, if_neg (by simp [hws])]
      simp only [pushWord]

theorem splitArgsGo_eq_words : ∀ (n : ℕ) (l : List Char), l.length ≤ n →
    ∀ cur, splitArgsGo l cur none =
      pushWord (cur ++ (readToken l).1) (sTokens (readToken l).2) := by
  intro n
  induction n with
  | zero =>
    intro l hl cur
    match l, hl with
    | [], _ => simp [splitArgsGo, readToken_nil, sTokens_nil, pushWord]
  | succ n ih =>
    intro l hl cur
    match l with
    | [] => simp [splitArgsGo, readToken_nil, sTokens_nil, pushWord]
    | c :: cs =>
      by_cases hq : c = '\x27' ∨ c = '\x22'
      · have hws : isJsSpace c = false := by
          rcases hq with rfl | rfl <;> decide
        rw [show splitArgsGo (c :: cs) cur none = splitArgsGo cs cur (some c) by
          simp [splitArgsGo, hq]]
        rw [splitArgsGo_quote c cs cur]
        have hrq := readQuoted_rest_le c cs
        rw [ih (readQuoted c cs).2 (by simp at hl; omega) (cur ++ (readQuoted c cs).1)]
        rw [readToken_cons, if_neg (by simp [hws]), if_pos hq]
        simp [pushWord, List.append_assoc]
      · by_cases hws : isJsSpace c
        · rw [show splitArgsGo (c :: cs) cur none =
              (if cur = [] then splitArgsGo cs [] none
               else cur :: splitArgsGo cs [] none) by
            simp [splitArgsGo, hq, hws]]
          rw [readToken_cons, if_pos hws]
          have hcs := ih cs (by simp at hl; omega) []
          simp only [List.nil_append] at hcs
          rw [words_eq_sTokens cs] at hcs
          by_cases hcur : cur = []
          · subst hcur
            simp [pushWord, hcs, sTokens_cons, hws]
          · simp [pushWord, hcur, hcs, sTokens_cons, hws]
        · rw [show splitArgsGo (c :: cs) cur none =
              splitArgsGo cs (cur ++ [c]) none by
            simp [splitArgsGo, hq, hws]]
          rw [ih cs (by simp at hl; omega) (cur ++ [c])]
          rw [readToken_cons, if_neg (by simp [hws]), if_neg hq]
          simp [pushWord, List.append_assoc]

theorem jsTrim_nil_of_all {l : List Char} (h : l.all isJsSpace = true) :
    jsTrim l = [] := by
  have h1 : l.dropWhile isJsSpace = [] :=
    List.dropWhile_eq_nil_iff.mpr (by simpa [List.all_eq_true] using h)
  unfold jsTrim
  rw [h1]
  simp

theorem all_of_jsTrim_nil {l : List Char} (h : jsTrim l = []) :
    l.all isJsSpace = true := by
  unfold jsTrim at h
  rw [List.reverse_eq_nil_iff, List.dropWhile_eq_nil_iff] at h
  have hdrop : ∀ x ∈ l.dropWhile isJsSpace, isJsSpace x = true := by
    intro x hx
    exact h x (by simpa using hx)
  rw [List.all_eq_true]
  intro x hx
  rw [← List.takeWhile_append_dropWhile isJsSpace l] at hx
  rcases List.mem_append.mp hx with hx | hx
  · exact List.mem_takeWhile_imp hx
  · exact hdrop x hx

theorem sTokens_of_all_ws {l : List Char} (h : l.all isJsSpace = true) :
    sTokens l = [] := by
  induction l with
  | nil => exact sTokens_nil
  | cons c cs ih =>
    simp only [List.all_cons, Bool.and_eq_true] at h
    rw [sTokens_cons, if_pos h.1]
    exact ih h.2

theorem splitArgs_eq_spec (raw : String) : splitArgs raw = splitArgsSpec raw := by
  unfold splitArgs splitArgsSpec
  by_cases htrim : jsTrim raw.data = []
  · rw [if_pos htrim, sTokens_of_all_ws (all_of_jsTrim_nil htrim)]
    simp
  · rw [if_neg htrim]
    have := splitArgsGo_eq_words raw.data.length raw.data (Nat.le_refl _) []
    simp only [List.nil_append] at this
    rw [words_eq_sTokens raw.data] at this
    rw [this]

theorem splitArgsGo_no_empty :
    ∀ (l cur : List Char) (q : Option Char) (t : List Char),
      t ∈ splitArgsGo l cur q → t ≠ [] := by
  intro l
  induction l with
  | nil =>
    intro cur q t ht
    simp only [splitArgsGo] at ht
    by_cases hcur : cur = []
    · simp [hcur] at ht
    · rw [if_neg hcur] at ht
      simp only [List.mem_singleton] at ht
      exact ht ▸ hcur
  | cons c cs ih =>
    intro cur q t ht
    match q with
    | some qc =>
      simp only [splitArgsGo] at ht
      by_cases hc : c = qc
      · exact ih cur none t (by rwa [if_pos hc] at ht)
      · exact ih (cur ++ [c]) (some qc) t (by rwa [if_neg hc] at ht)
    | none =>
      simp only [splitArgsGo] at ht
      by_cases hq : c = '\x27' ∨ c = '\x22'
      · exact ih cur (some c) t (by rwa [if_pos hq] at ht)
      · rw [if_neg hq] at ht
        by_cases hws : isJsSpace c
        · rw [if_pos hws] at ht
          by_cases hcur : cur = []
          · exact ih [] none t (by rwa [if_pos hcur] at ht)
          · rw [if_neg hcur] at ht
            rcases List.mem_cons.mp ht with rfl | ht
            · exact hcur
            · exact ih [] none t ht
        · rw [if_neg hws] at ht
          exact ih (cur ++ [c]) none t ht

theorem dropLit_eq_some_iff {ps l r : List Char} :
    dropLit ps l = some r ↔ l = ps ++ r := by
  induction ps generalizing l with
  | nil => simp [dropLit]
  | cons p ps ih =>
    match l with
    | [] => simp [dropLit]
    | c :: cs =>
      simp only [dropLit]
      by_cases hc : c = p
      · subst hc
        rw [if_pos rfl, ih]
        simp
      · rw [if_neg hc]
        simp only [List.cons_append, List.cons.injEq]
        constructor
        · intro h; exact absurd h (by simp)
        · rintro ⟨rfl, -⟩; exact absurd rfl hc

theorem head?_dropWhile_false {p : Char → Bool} {l : List Char} {c : Char}
    (h : (l.dropWhile p).head? = some c) : p c = false := by
  have hm := List.head?_dropWhile_not p l
  rw [h] at hm
  exact hm

/-- A match of the version-id regex anchored at the head of `l`, in the
words of the spec: the exact label phrase, then optional whitespace, then
the identifier — a non-empty maximal run of hexadecimal-or-hyphen
characters — and then the rest of the text. -/
def VersionIdMatchAt (l : List Char) (id : String) : Prop :=
  ∃ ws idc rest,
    l = versionLabel ++ ws ++ idc ++ rest ∧
    ws.all isJsSpace = true ∧ idc ≠ [] ∧ idc.all isHexDashChar = true ∧
    (∀ c, rest.head? = some c → isHexDashChar c = false) ∧
    id = String.mk idc

theorem matchVersionIdAt_iff {l : List Char} {id : String} :
    matchVersionIdAt l = some id ↔ VersionIdMatchAt l id := by
  constructor
  · intro h
    unfold matchVersionIdAt at h
    split at h
    · exact absurd h (by simp)
    · next r hd =>
      rw [dropLit_eq_some_iff] at hd
      split at h
      · exact absurd h (by simp)
      · next d ds hm =>
        simp only [Option.some.injEq] at h
        refine ⟨r.takeWhile isJsSpace, d :: ds,
          (r.dropWhile isJsSpace).dropWhile isHexDashChar, ?_, ?_, by simp, ?_, ?_, h.symm⟩
        · rw [hd, List.append_assoc, List.append_assoc]
          congr 1
          rw [← hm, List.takeWhile_append_dropWhile, List.takeWhile_append_dropWhile]
        · exact List.all_takeWhile
        · rw [← hm]; exact List.all_takeWhile
        · intro c hc
          exact head?_dropWhile_false hc
  · rintro ⟨ws, idc, rest, rfl, hws, hne, hall, hrest, rfl⟩
    match idc, hne, hall, hrest with
    | d :: ds, _, hall, hrest =>
      have hd0 : isHexDashChar d = true := by
        simp only [List.all_eq_true] at hall
        exact hall d (by simp)
      have hd : dropLit versionLabel (versionLabel ++ ws ++ (d :: ds) ++ rest) =
          some (ws ++ ((d :: ds) ++ rest)) := dropLit_eq_some_iff.mpr (by simp)
      have hdrop : ((ws ++ ((d :: ds) ++ rest)).dropWhile isJsSpace) =
          (d :: ds) ++ rest := by
        rw [List.dropWhile_append_of_pos (by simpa [List.all_eq_true] using hws)]
        exact dropWhile_cons_head (hexDash_not_ws hd0)
      have htk : ((d :: ds) ++ rest).takeWhile isHexDashChar = d :: ds := by
        refine takeWhile_append_nil hall ?_
        match rest, hrest with
        | [], _ => rfl
        | r0 :: rs, hrest =>
          have h0 : isHexDashChar r0 = false := hrest r0 (by simp)
          simp [List.takeWhile_cons, h0]
      unfold matchVersionIdAt
      simp only [hd, hdrop, htk]

theorem versionIdScan_eq_tails (l : List Char) :
    versionIdScan l = (l.tails.filterMap matchVersionIdAt).head? := by
  induction l with
  | nil => simp [versionIdScan, matchVersionIdAt, dropLit, versionLabel]
  | cons c cs ih =>
    rw [List.tails_cons]
    simp only [versionIdScan, List.filterMap_cons]
    match hm : matchVersionIdAt (c :: cs) with
    | some s => simp
    | none => simpa using ih

theorem urlScan_eq_tails (l : List Char) :
    urlScan l = (l.tails.filterMap matchUrlAt).head? := by
  induction l with
  | nil => simp [urlScan, matchUrlAt, dropLit]
  | cons c cs ih =>
    rw [List.tails_cons]
    simp only [urlScan, List.filterMap_cons]
    match hm : matchUrlAt (c :: cs) with
    | some s => simp
    | none => simpa using ih

theorem splitCh_ne_nil (sep : Char) (l : List Char) : splitCh sep l ≠ [] := by
  cases l with
  | nil => simp [splitCh]
  | cons c cs =>
    simp only [splitCh]
    match splitCh sep cs with
    | [] => simp
    | t :: ts =>
      by_cases hc : c = sep <;> simp [hc]

theorem splitCh_no_sep {sep : Char} {l : List Char}
    (h : ∀ c ∈ l, c ≠ sep) : splitCh sep l = [l] := by
  induction l with
  | nil => rfl
  | cons c cs ih =>
    have hcs : splitCh sep cs = [cs] := ih fun x hx => h x (by simp [hx])
    simp only [splitCh, hcs]
    rw [if_neg (h c (by simp))]

theorem splitCh_append_sep {sep : Char} {a : List Char}
    (ha : ∀ c ∈ a, c ≠ sep) (l : List Char) :
    splitCh sep (a ++ sep :: l) = a :: splitCh sep l := by
  induction a with
  | nil =>
    simp only [List.nil_append, splitCh]
    match h : splitCh sep l with
    | [] => exact absurd h (splitCh_ne_nil sep l)
    | t :: ts => simp
  | cons c cs ih =>
    have hcs := ih fun x hx => ha x (by simp [hx])
    simp only [List.cons_append, splitCh, List.append_eq, hcs]
    rw [if_neg (ha c (by simp))]

theorem version_id_not_in_onlyUploadOutputs_none (inp : Inputs) (md : DeployMetadata)
    (v : String) : ("version_id", v) ∉ onlyUploadOutputs inp md none := by
  unfold onlyUploadOutputs
  intro h
  simp only [List.mem_append] at h
  rcases h with (h | h) | h
  · simp at h
  · split at h
    · have he := List.mem_singleton.mp h
      rw [Prod.mk.injEq] at he
      exact absurd he.1 (by decide)
    · simp at h
  · split at h
    · have he := List.mem_singleton.mp h
      rw [Prod.mk.injEq] at he
      exact absurd he.1 (by decide)
    · simp at h

theorem run_upload_ok_no_id (inp : Inputs) (md : DeployMetadata) (execF : ExecOracle)
    (h1 : inp.api_token ≠ "") (h2 : inp.wrangler_command ≠ "") (h3 : inp.config ≠ "")
    (h4 : (execF (wcOf inp) (uploadArgsOf inp md)).exitCode = 0)
    (h5 : parseVersionIdFromUpload (execF (wcOf inp) (uploadArgsOf inp md)).stdout = none) :
    run inp md execF =
      if onlyUploadOf inp then
        ⟨none, onlyUploadOutputs inp md none, [(wcOf inp, uploadArgsOf inp md)]⟩
      else
        ⟨some "Failed to parse Worker Version ID from wrangler versions upload output.",
         [], [(wcOf inp, uploadArgsOf inp md)]⟩ := by
  unfold run
  rw [if_neg h1, if_neg h2, if_neg h3]
  simp only [h4, h5, ne_eq, not_true_eq_false, if_false]

theorem run_upload_failed (inp : Inputs) (md : DeployMetadata) (execF : ExecOracle)
    (h1 : inp.api_token ≠ "") (h2 : inp.wrangler_command ≠ "") (h3 : inp.config ≠ "")
    (h4 : (execF (wcOf inp) (uploadArgsOf inp md)).exitCode ≠ 0) :
    run inp md execF =
      ⟨some ("wrangler versions upload failed with exit code " ++
          toString (execF (wcOf inp) (uploadArgsOf inp md)).exitCode ++
          ". See logs above for details."),
       [], [(wcOf inp, uploadArgsOf inp md)]⟩ := by
  unfold run
  rw [if_neg h1, if_neg h2, if_neg h3]
  simp only [ne_eq, if_pos h4]

theorem buildDefaultMessage_length_le (md : DeployMetadata) :
    (buildDefaultMessage md).length ≤ 100 := by
  have h : ∀ l : List Char, (String.mk (l.take 100)).length ≤ 100 := by
    intro l
    show (l.take 100).length ≤ 100
    rw [List.length_take]
    omega
  simp only [buildDefaultMessage]
  exact h _

theorem buildDefaultMessage_bare (md : DeployMetadata)
    (h1 : md.branch = none) (h2 : md.sha = none) (h3 : md.short_sha = none) :
    buildDefaultMessage md =
      String.mk ((jsOr md.short_commit_message (jsOr md.commit_message "")).data.take 100) := by
  simp only [buildDefaultMessage, h1, h2, h3]
  rfl

/-- Fixture metadata with every field absent. -/
def mdNone : DeployMetadata := {}

/-- Fixture context with no bindings. -/
def ctxNone : TemplateContext := fun _ => none

/-- Fixture metadata for the C4 example: branch `main`, short sha
`a1b2c3`, short commit message `fix bug`. -/
def mdC4 : DeployMetadata :=
  { branch := some "main", short_sha := some "a1b2c3",
    short_commit_message := some "fix bug" }

/-- Fixture metadata with only a full commit message. -/
def mdMsgOnly : DeployMetadata := { commit_message := some "just a message" }

/-- Fixture metadata with a sha but no short sha and no branch: the
default message prefixes the first six characters of the sha. -/
def mdShaOnly : DeployMetadata := { sha := some "0123456789abcdef" }

/-- Fixture metadata with a branch but neither sha nor short sha. -/
def mdBranchOnly : DeployMetadata :=
  { branch := some "main", short_commit_message := some "fix bug" }

/-- C1: Template Renderer contract — for every template and context,
`renderTemplate` satisfies the rendering relation of §4.1 (each placeholder
occurrence `\x7b\x7b name \x7d\x7d` replaced by the context value for the
name, alphanumeric/underscore names, optional inner whitespace, the empty
string for absent or undefined names, all other text passed through
unchanged), and a template containing no placeholder renders to itself for
every context. -/
theorem c1_template_renderer :
    (∀ (t : String) (ctx : TemplateContext),
      RendersSpec ctx t.data (renderTemplate t ctx).data)
    ∧ (∀ (t : String) (ctx : TemplateContext),
        NoPlaceholder t → renderTemplate t ctx = t) := by
  constructor
  · intro t ctx
    exact renderChars_renders ctx t.data
  · intro t ctx h
    have hnone : ∀ s ∈ t.data.tails, parseAt s = none := by
      intro s hs
      match hp : parseAt s with
      | none => rfl
      | some (n, r) =>
        obtain ⟨name, hph, -⟩ := parseAt_sound hp
        exact absurd hph (h s hs name r)
    show String.mk (renderChars ctx t.data) = t
    rw [renderChars_id_of_no_placeholder hnone]

theorem c1_template_renderer_witness :
    RendersSpec ctxNone "a\x7b\x7bx\x7d\x7db".data
      (renderTemplate "a\x7b\x7bx\x7d\x7db" ctxNone).data
    ∧ renderTemplate "no vars" ctxNone = "no vars" :=
  ⟨c1_template_renderer.1 "a\x7b\x7bx\x7d\x7db" ctxNone,
   c1_template_renderer.2 "no vars" ctxNone (by
     intro l hl name rest hph
     have hp := parseAt_complete hph
     have hall : ∀ s ∈ "no vars".data.tails, parseAt s = none := by decide
     rw [hall l hl] at hp
     exact absurd hp (by simp))⟩

/-- C2: Argument Tokenizer contract — `splitArgs` equals the §4.2
specification (split on whitespace runs outside quotes, quoted runs keep
their whitespace, delimiters consumed, unterminated quotes close
implicitly); an all-whitespace (or empty) input yields the empty list;
and the claim's concrete examples hold, including concatenation of
adjacent quoted and unquoted segments. -/
theorem c2_argument_tokenizer :
    (∀ raw : String, splitArgs raw = splitArgsSpec raw)
    ∧ (∀ raw : String, raw.data.all isJsSpace = true → splitArgs raw = [])
    ∧ splitArgs "a\x27b c\x27d" = ["ab cd"]
    ∧ splitArgs "\x22a b" = ["a b"]
    ∧ splitArgs "--msg \x22hello world\x22" = ["--msg", "hello world"] := by
  refine ⟨splitArgs_eq_spec, ?_, by decide, by decide, by decide⟩
  intro raw h
  unfold splitArgs
  rw [if_pos (jsTrim_nil_of_all h)]

theorem c2_argument_tokenizer_witness :
    splitArgs "--env production" = splitArgsSpec "--env production"
    ∧ splitArgs "  " = [] :=
  ⟨c2_argument_tokenizer.1 "--env production",
   c2_argument_tokenizer.2.1 "  " (by decide)⟩

/-- C3: Version-id extraction — `parseVersionIdFromUpload` returns the
first (leftmost) anchored match over the suffixes of the text, an anchored
match is exactly the case-sensitive label `Worker Version ID:` followed by
optional whitespace and a maximal non-empty run of hexadecimal-or-hyphen
characters, and the claim's two concrete examples hold. -/
theorem c3_version_id_extraction :
    (∀ out : String, parseVersionIdFromUpload out =
        (out.data.tails.filterMap matchVersionIdAt).head?)
    ∧ (∀ (l : List Char) (id : String),
        matchVersionIdAt l = some id ↔ VersionIdMatchAt l id)
    ∧ parseVersionIdFromUpload "... Worker Version ID: abc123-def ..." =
        some "abc123-def"
    ∧ parseVersionIdFromUpload "no id here" = none :=
  ⟨fun out => versionIdScan_eq_tails out.data,
   fun _ _ => matchVersionIdAt_iff, by decide, by decide⟩

/-- The short sha the default message uses: the `short_sha` field when
present and non-empty, else the first six characters of `sha` (the
`meta.short_sha || (meta.sha ? meta.sha.substring(0, 6) : "")` fallback of
the source). -/
def shortShaOf (md : DeployMetadata) : String :=
  jsOr md.short_sha
    (match md.sha with
     | none => ""
     | some s => if s = "" then "" else String.mk (s.data.take 6))

/-- The commit-message part of the default message: the short commit
message, else the full one, else empty. -/
def baseMessageOf (md : DeployMetadata) : String :=
  jsOr md.short_commit_message (jsOr md.commit_message "")

/-- The default message as the claim words it: `branch@shortSha` using
whichever of branch / short sha is available (the `@` separator omitted
when one is missing, the prefix and `: ` omitted when both are), followed
by `: ` and the short (or full) commit message, the whole truncated to 100
characters. -/
def defaultMessageSpec (md : DeployMetadata) : String :=
  let msg :=
    if jsOr md.branch "" ≠ "" ∧ shortShaOf md ≠ "" then
      jsOr md.branch "" ++ "@" ++ shortShaOf md ++ ": " ++ baseMessageOf md
    else if jsOr md.branch "" ≠ "" then jsOr md.branch "" ++ ": " ++ baseMessageOf md
    else if shortShaOf md ≠ "" then shortShaOf md ++ ": " ++ baseMessageOf md
    else baseMessageOf md
  String.mk (msg.data.take 100)

theorem append_at_ne_empty (a b : String) : a ++ "@" ++ b ≠ "" := by
  intro h
  have h2 := congrArg String.data h
  simp [String.data_append] at h2

theorem buildDefaultMessage_eq_spec (md : DeployMetadata) :
    buildDefaultMessage md = defaultMessageSpec md := by
  unfold buildDefaultMessage defaultMessageSpec shortShaOf baseMessageOf
  by_cases hb : jsOr md.branch "" = "" <;>
    by_cases hs : jsOr md.short_sha
        (match md.sha with
         | none => ""
         | some s => if s = "" then "" else String.mk (s.data.take 6)) = "" <;>
    simp [hb, hs, append_at_ne_empty]

/-- C4: Default message synthesis — for every metadata instance the default
message equals the claim's composition (`branch@shortSha` with whichever
parts are available, then `: ` and the short-or-full commit message,
truncated to 100 characters); the result never exceeds 100 characters; with
neither branch nor sha it is the bare commit message, provided that fits
the 100-character budget; and branch `main`, short sha `a1b2c3`, short
commit message `fix bug` yield `main@a1b2c3: fix bug`. -/
theorem c4_default_message :
    (∀ md : DeployMetadata, buildDefaultMessage md = defaultMessageSpec md)
    ∧ (∀ md : DeployMetadata, (buildDefaultMessage md).length ≤ 100)
    ∧ (∀ md : DeployMetadata, md.branch = none → md.sha = none →
        md.short_sha = none →
        (jsOr md.short_commit_message (jsOr md.commit_message "")).length ≤ 100 →
        buildDefaultMessage md = jsOr md.short_commit_message (jsOr md.commit_message ""))
    ∧ buildDefaultMessage mdC4 = "main@a1b2c3: fix bug" := by
  refine ⟨buildDefaultMessage_eq_spec, buildDefaultMessage_length_le, ?_, by decide⟩
  intro md h1 h2 h3 h4
  rw [buildDefaultMessage_bare md h1 h2 h3,
    List.take_of_length_le
      (show (jsOr md.short_commit_message (jsOr md.commit_message "")).data.length ≤ 100
        from h4)]

theorem c4_default_message_witness :
    buildDefaultMessage mdMsgOnly = "just a message"
    ∧ buildDefaultMessage mdShaOnly = defaultMessageSpec mdShaOnly
    ∧ defaultMessageSpec mdShaOnly = "012345: "
    ∧ buildDefaultMessage mdBranchOnly = defaultMessageSpec mdBranchOnly
    ∧ defaultMessageSpec mdBranchOnly = "main: fix bug"
    ∧ (buildDefaultMessage mdNone).length ≤ 100 := by
  have h := c4_default_message.2.2.1 mdMsgOnly rfl rfl rfl (by decide)
  exact ⟨by rw [h]; decide, c4_default_message.1 mdShaOnly, by decide,
    c4_default_message.1 mdBranchOnly, by decide, c4_default_message.2.1 mdNone⟩

/-- C5: Version-id-miss policy — when the required inputs are present, the
upload invocation exits 0 and its captured output has no parsable version
id, the run fails exactly when upload-only mode is off; in upload-only mode
it succeeds with no `version_id` output; and in both cases the upload
invocation is the only external invocation (deploy never runs). -/
theorem c5_version_id_miss_policy (inp : Inputs) (md : DeployMetadata)
    (execF : ExecOracle)
    (h1 : inp.api_token ≠ "") (h2 : inp.wrangler_command ≠ "") (h3 : inp.config ≠ "")
    (h4 : (execF (wcOf inp) (uploadArgsOf inp md)).exitCode = 0)
    (h5 : parseVersionIdFromUpload (execF (wcOf inp) (uploadArgsOf inp md)).stdout = none) :
    ((run inp md execF).failed ≠ none ↔ onlyUploadOf inp = false)
    ∧ (onlyUploadOf inp = true →
        (run inp md execF).failed = none ∧
        ∀ v, ("version_id", v) ∉ (run inp md execF).outputs)
    ∧ (run inp md execF).invocations = [(wcOf inp, uploadArgsOf inp md)] := by
  have hrun := run_upload_ok_no_id inp md execF h1 h2 h3 h4 h5
  refine ⟨?_, ?_, ?_⟩
  · rw [hrun]
    by_cases ho : onlyUploadOf inp <;> simp [ho]
  · intro ho
    rw [hrun, if_pos ho]
    exact ⟨rfl, fun v => version_id_not_in_onlyUploadOutputs_none inp md v⟩
  · rw [hrun]
    by_cases ho : onlyUploadOf inp <;> simp [ho]

/-- Fixture inputs for the upload-only C5 scenario. -/
def inpC5 : Inputs :=
  { api_token := "t", wrangler_command := "wrangler", config := "wrangler.toml",
    only_upload := "true" }

/-- Fixture inputs for the full-mode scenarios (C5/C6). -/
def inpFull : Inputs :=
  { api_token := "t", wrangler_command := "wrangler", config := "wrangler.toml" }

/-- Oracle: every invocation exits 0 with output containing no version id. -/
def execNoId : ExecOracle := fun _ _ => ⟨0, "done without id"⟩

/-- Oracle: every invocation exits 2 with empty output. -/
def execFail2 : ExecOracle := fun _ _ => ⟨2, ""⟩

theorem c5_version_id_miss_policy_witness :
    (((run inpC5 mdNone execNoId).failed ≠ none ↔ onlyUploadOf inpC5 = false)
      ∧ (onlyUploadOf inpC5 = true →
          (run inpC5 mdNone execNoId).failed = none ∧
          ∀ v, ("version_id", v) ∉ (run inpC5 mdNone execNoId).outputs)
      ∧ (run inpC5 mdNone execNoId).invocations =
          [(wcOf inpC5, uploadArgsOf inpC5 mdNone)])
    ∧ (((run inpFull mdNone execNoId).failed ≠ none ↔ onlyUploadOf inpFull = false)
      ∧ (onlyUploadOf inpFull = true →
          (run inpFull mdNone execNoId).failed = none ∧
          ∀ v, ("version_id", v) ∉ (run inpFull mdNone execNoId).outputs)
      ∧ (run inpFull mdNone execNoId).invocations =
          [(wcOf inpFull, uploadArgsOf inpFull mdNone)]) :=
  ⟨c5_version_id_miss_policy inpC5 mdNone execNoId (by decide) (by decide)
      (by decide) rfl (by decide),
   c5_version_id_miss_policy inpFull mdNone execNoId (by decide) (by decide)
      (by decide) rfl (by decide)⟩

/-- C6: Upload-failure atomicity — when the required inputs are present and
the upload invocation exits non-zero, the run fails with a message carrying
that exit code, publishes no outputs, and makes no further invocation (no
deploy, no retry). -/
theorem c6_upload_failure_atomicity (inp : Inputs) (md : DeployMetadata)
    (execF : ExecOracle)
    (h1 : inp.api_token ≠ "") (h2 : inp.wrangler_command ≠ "") (h3 : inp.config ≠ "")
    (h4 : (execF (wcOf inp) (uploadArgsOf inp md)).exitCode ≠ 0) :
    (run inp md execF).failed =
      some ("wrangler versions upload failed with exit code " ++
        toString (execF (wcOf inp) (uploadArgsOf inp md)).exitCode ++
        ". See logs above for details.")
    ∧ (run inp md execF).outputs = []
    ∧ (run inp md execF).invocations = [(wcOf inp, uploadArgsOf inp md)] := by
  rw [run_upload_failed inp md execF h1 h2 h3 h4]
  exact ⟨rfl, rfl, rfl⟩

theorem c6_upload_failure_atomicity_witness :
    (run inpFull mdNone execFail2).failed =
      some "wrangler versions upload failed with exit code 2. See logs above for details."
    ∧ (run inpFull mdNone execFail2).outputs = []
    ∧ (run inpFull mdNone execFail2).invocations =
        [(wcOf inpFull, uploadArgsOf inpFull mdNone)] := by
  have h := c6_upload_failure_atomicity inpFull mdNone execFail2 (by decide)
    (by decide) (by decide) (by decide)
  exact ⟨by rw [h.1]; rfl, h.2.1, h.2.2⟩

/-- Fixture inputs with the config path left unset. -/
def inpNoConfig : Inputs :=
  { api_token := "t", wrangler_command := "wrangler", config := "" }

/-- Oracle: every invocation exits 0 with empty output. -/
def execOk : ExecOracle := fun _ _ => ⟨0, ""⟩

/-- C7: the code contradicts the claim's first half — with the config path
input unset the run does NOT proceed: `core.getInput("config",
{ required: true })` throws, the run fails before any external invocation.
The second half holds: whenever the run builds its invocations, a
`--config <path>` pair occurs in both the upload and the deploy argument
lists. -/
theorem c7_config_required :
    ((run inpNoConfig mdNone execOk).failed =
        some "Input required and not supplied: config"
      ∧ (run inpNoConfig mdNone execOk).invocations = []
      ∧ (run inpNoConfig mdNone execOk).outputs = [])
    ∧ (∀ (inp : Inputs) (md : DeployMetadata),
        ∃ rest, uploadArgsOf inp md =
          ["versions", "upload", "--config", inp.config] ++ rest)
    ∧ (∀ (inp : Inputs) (md : DeployMetadata) (vid : String),
        ∃ rest, deployArgsOf inp md vid =
          ["versions", "deploy", vid, "-y", "--config", inp.config] ++ rest) :=
  ⟨⟨rfl, rfl, rfl⟩,
   fun inp md => ⟨splitArgs inp.upload_args ++ ["--message=" ++ msgOf inp md], by
     simp [uploadArgsOf]⟩,
   fun inp md vid => ⟨splitArgs inp.deploy_args ++ ["--message=" ++ msgOf inp md], by
     simp [deployArgsOf]⟩⟩

/-- C8 counterexample: for `GITHUB_REPOSITORY = "a/b/c"` the code derives
repo `"b"`, not the claimed entire remainder `"b/c"` after the first
slash. -/
theorem c8_counterexample :
    ¬ ((ownerRepoOfEnv (some "a/b/c")).1 = some "a" ∧
       (ownerRepoOfEnv (some "a/b/c")).2 = some "b/c") := by
  decide

/-- C8 (amended): `collectMetadata` splits the repository value on every
slash and keeps the first two segments — the owner is the text before the
first slash and the repo name the segment between the first and second
slash (everything after a second slash is dropped); with no slash the whole
value is the owner and the repo name is absent. -/
theorem c8_owner_repo_amended :
    (∀ a b : String, (∀ c ∈ a.data, c ≠ '/') → (∀ c ∈ b.data, c ≠ '/') →
       ownerRepoOfEnv (some (a ++ "/" ++ b)) = (some a, some b))
    ∧ (∀ a b c : String, (∀ x ∈ a.data, x ≠ '/') → (∀ x ∈ b.data, x ≠ '/') →
       (∀ x ∈ c.data, x ≠ '/') →
       ownerRepoOfEnv (some (a ++ "/" ++ b ++ "/" ++ c)) = (some a, some b))
    ∧ (∀ v : String, v ≠ "" → (∀ x ∈ v.data, x ≠ '/') →
       ownerRepoOfEnv (some v) = (some v, none)) := by
  refine ⟨?_, ?_, ?_⟩
  · intro a b ha hb
    have hdata : (a ++ "/" ++ b).data = a.data ++ '/' :: b.data := by
      simp [String.data_append]
    have hne : (a ++ "/" ++ b) ≠ "" := by
      intro h
      have := congrArg String.data h
      rw [hdata] at this
      simp at this
    simp only [ownerRepoOfEnv]
    rw [if_neg hne, hdata, splitCh_append_sep ha, splitCh_no_sep hb]
    simp
  · intro a b c ha hb hc
    have hdata : (a ++ "/" ++ b ++ "/" ++ c).data =
        a.data ++ '/' :: (b.data ++ '/' :: c.data) := by
      simp [String.data_append]
    have hne : (a ++ "/" ++ b ++ "/" ++ c) ≠ "" := by
      intro h
      have := congrArg String.data h
      rw [hdata] at this
      simp at this
    simp only [ownerRepoOfEnv]
    rw [if_neg hne, hdata, splitCh_append_sep ha, splitCh_append_sep hb,
      splitCh_no_sep hc]
    simp
  · intro v hv hvs
    simp only [ownerRepoOfEnv]
    rw [if_neg hv, splitCh_no_sep hvs]
    simp

theorem c8_owner_repo_amended_witness :
    ownerRepoOfEnv (some ("own" ++ "/" ++ "rep")) = (some "own", some "rep")
    ∧ ownerRepoOfEnv (some ("a" ++ "/" ++ "b" ++ "/" ++ "c")) = (some "a", some "b")
    ∧ ownerRepoOfEnv (some "noslash") = (some "noslash", none) :=
  ⟨c8_owner_repo_amended.1 "own" "rep" (by decide) (by decide),
   c8_owner_repo_amended.2.1 "a" "b" "c" (by decide) (by decide) (by decide),
   c8_owner_repo_amended.2.2 "noslash" (by decide) (by decide)⟩

theorem splitCh_headD_eq_takeWhile (sep : Char) (l : List Char) :
    (splitCh sep l).headD [] = l.takeWhile (fun c => c != sep) := by
  induction l with
  | nil => rfl
  | cons c cs ih =>
    simp only [splitCh]
    match h : splitCh sep cs with
    | [] => exact absurd h (splitCh_ne_nil sep cs)
    | t :: ts =>
      rw [h] at ih
      by_cases hc : c = sep
      · subst hc
        simp [List.takeWhile_cons]
      · simp only [if_neg hc, List.headD_cons, List.takeWhile_cons]
        rw [if_pos (by simpa using hc)]
        simp only [List.headD_cons] at ih
        rw [ih]

/-- C9 counterexample: the orchestrator's short-commit-message (the code of
the bundled entry point, src/index.ts `collectMetadata`) is the first line
NOT trimmed: on the commit message `"fix bug \nmore"` it keeps the
trailing space, unlike the claimed trimmed first line. -/
theorem c9_counterexample :
    shortCommitOfMessage (some "fix bug \nmore") ≠
      some (jsTrimStr (firstLineStr "fix bug \nmore")) := by
  decide

/-- C9 (amended): the first line itself is the run of characters before
the first newline; the metadata-module variant (src/metadata.ts,
`collectDeployMetadata`) trims it as the claim states, while the bundled
orchestrator's variant (src/index.ts, `collectMetadata`) takes the first
line without trimming; both are absent exactly when the commit message is
absent or empty. -/
theorem c9_short_commit_amended :
    (∀ m : String, firstLineStr m = String.mk (m.data.takeWhile (fun c => c != '\x0a')))
    ∧ (∀ m : String, m ≠ "" →
        shortCommitOfMessageMeta (some m) = some (jsTrimStr (firstLineStr m)))
    ∧ (∀ m : String, m ≠ "" →
        shortCommitOfMessage (some m) = some (firstLineStr m))
    ∧ shortCommitOfMessage none = none ∧ shortCommitOfMessageMeta none = none
    ∧ shortCommitOfMessage (some "") = none
    ∧ shortCommitOfMessageMeta (some "") = none := by
  refine ⟨?_, ?_, ?_, rfl, rfl, rfl, rfl⟩
  · intro m
    unfold firstLineStr
    rw [splitCh_headD_eq_takeWhile]
  · intro m hm
    simp [shortCommitOfMessageMeta, hm]
  · intro m hm
    simp [shortCommitOfMessage, hm]

theorem c9_short_commit_amended_witness :
    firstLineStr "ab\ncd" = String.mk ("ab\ncd".data.takeWhile (fun c => c != '\x0a'))
    ∧ shortCommitOfMessageMeta (some "fix bug \nmore") =
        some (jsTrimStr (firstLineStr "fix bug \nmore"))
    ∧ shortCommitOfMessage (some "fix bug \nmore") =
        some (firstLineStr "fix bug \nmore") :=
  ⟨c9_short_commit_amended.1 "ab\ncd",
   c9_short_commit_amended.2.1 "fix bug \nmore" (by decide),
   c9_short_commit_amended.2.2.1 "fix bug \nmore" (by decide)⟩

/-- C10: the tokenizer never produces an empty token: every token of
`splitArgs` is non-empty, a quoted empty string contributes no token
(`splitArgs "\x22\x22" = []`), and `splitArgs "a \x22\x22 b" = ["a", "b"]`. -/
theorem c10_no_empty_tokens :
    (∀ (raw t : String), t ∈ splitArgs raw → t ≠ "")
    ∧ splitArgs "\x22\x22" = []
    ∧ splitArgs "a \x22\x22 b" = ["a", "b"] := by
  refine ⟨?_, by decide, by decide⟩
  intro raw t ht
  unfold splitArgs at ht
  split at ht
  · simp at ht
  · obtain ⟨t', ht', rfl⟩ := List.mem_map.mp ht
    have hne := splitArgsGo_no_empty raw.data [] none t' ht'
    intro h
    exact hne (congrArg String.data h)

theorem c10_no_empty_tokens_witness : ("x" : String) ≠ "" :=
  c10_no_empty_tokens.1 "x y" "x" (by decide)
